import Mathlib

/-!
Verification of the extraction/normalization core of the Steam-Discount-Finder
repository (src/steam_sales.py), shallowly embedded in Lean 4.

Modelling conventions:
* Python strings are `String`/`List Char`; the regex scans of
  `extract_price_from_text` (line 121) and the `₺`-token scan (line 252) are
  hand-compiled into explicit left-to-right scanning functions.
* Python float arithmetic is modelled exactly over `ℚ` (the decimal literals
  appearing in price texts and the `*100`, `/`, `1 - d/100` operations are
  exact in `ℚ`; IEEE rounding is not modelled).  `int(...)` truncation toward
  zero is `truncQ`.
* Parsed HTML (BeautifulSoup) is a tree of `Node`s; each CSS selector used by
  the source is hand-compiled to a document-order (preorder) search.  For
  descendant combinators the ancestor is sought inside the scope element's
  subtree (the real pages never carry the ancestor classes above a result row).
* The external Steam price API (`fetch_game_details`) is an oracle
  `String → Option ApiPrice`; `none` models every failure mode (network error,
  missing `price_overview`, unsuccessful response).
* A `ZeroDivisionError` escaping to the per-candidate `except` handler
  (lines 264 and 290, reachable when `discount_percent = 100`) makes the
  candidate be skipped; this is modelled by an explicit `none`.
-/

/-! ## Character and string utilities (Python `str` helpers) -/

/-- Non-breaking space, which `extract_price_from_text` replaces by `' '`
and which Python's `\s` / `str.strip()` treat as whitespace. -/
def nbsp : Char := Char.ofNat 160

/-- Whitespace as Python sees it in the texts at hand (ASCII whitespace plus
the non-breaking space; other exotic Unicode whitespace is not modelled). -/
def pyWs (c : Char) : Bool := c.isWhitespace || c == nbsp

/-- Python `str.strip()`: drop whitespace from both ends. -/
def pyStrip (l : List Char) : List Char :=
  ((l.dropWhile pyWs).reverse.dropWhile pyWs).reverse

/-- `str.strip()` on a `String`. -/
def pyStripStr (s : String) : String := String.mk (pyStrip s.toList)

/-- Numeric value of a digit character. -/
def digitVal (c : Char) : ℕ := c.toNat - 48

/-- Value of a digit string, most significant digit first. -/
def digitsVal (l : List Char) : ℕ := l.foldl (fun a c => 10 * a + digitVal c) 0

/-- Value of the decimal literal `ip.fp` (integer part, fractional part),
exactly as `float(...)` reads it (modelled exactly over `ℚ`). -/
def decimalVal (ip fp : List Char) : ℚ :=
  (digitsVal ip : ℚ) + (digitsVal fp : ℚ) / (10 : ℚ) ^ fp.length

/-- Match the regex fragment `\d+(?:[.,]\d+)?` anchored at the head of the
list: returns the (integer part, fractional part) of the token and the
remaining characters, or `none` when the head is not a digit. -/
def tokenHere : List Char → Option ((List Char × List Char) × List Char)
  | [] => none
  | c :: rest =>
    if c.isDigit then
      let ip := c :: rest.takeWhile Char.isDigit
      match rest.dropWhile Char.isDigit with
      | s :: d :: r3 =>
        if (s == '.' || s == ',') && d.isDigit then
          some ((ip, d :: r3.takeWhile Char.isDigit), r3.dropWhile Char.isDigit)
        else some ((ip, []), s :: d :: r3)
      | r1 => some ((ip, []), r1)
    else none

theorem dropWhile_length_le (p : Char → Bool) :
    ∀ l : List Char, (l.dropWhile p).length ≤ l.length := by
  intro l
  induction l with
  | nil => simp
  | cons c cs ih =>
    by_cases h : p c
    · simp [List.dropWhile_cons, h]; omega
    · simp [List.dropWhile_cons, h]

theorem tokenHere_rest_lt {cs : List Char} {t : List Char × List Char}
    {rest : List Char} (h : tokenHere cs = some (t, rest)) :
    rest.length < cs.length := by
  match cs with
  | [] => simp [tokenHere] at h
  | c :: cs0 =>
    have hlen := dropWhile_length_le Char.isDigit cs0
    by_cases hd : c.isDigit = true
    · simp only [tokenHere] at h
      rw [if_pos hd] at h
      match hr : cs0.dropWhile Char.isDigit with
      | [] =>
        rw [hr] at h
        simp only [Option.some.injEq, Prod.mk.injEq] at h
        obtain ⟨-, h2⟩ := h
        subst h2
        simp only [List.length_nil, List.length_cons]
        omega
      | [s] =>
        rw [hr] at h hlen
        simp only [Option.some.injEq, Prod.mk.injEq] at h
        obtain ⟨-, h2⟩ := h
        subst h2
        simp only [List.length_cons] at hlen ⊢
        omega
      | s :: d :: r3 =>
        rw [hr] at h hlen
        dsimp only at h
        by_cases hc : ((s == '.' || s == ',') && d.isDigit) = true
        · rw [if_pos hc] at h
          simp only [Option.some.injEq, Prod.mk.injEq] at h
          obtain ⟨-, h2⟩ := h
          subst h2
          have h3 := dropWhile_length_le Char.isDigit r3
          simp only [List.length_cons] at hlen ⊢
          omega
        · rw [if_neg hc] at h
          simp only [Option.some.injEq, Prod.mk.injEq] at h
          obtain ⟨-, h2⟩ := h
          subst h2
          simp only [List.length_cons] at hlen ⊢
          omega
    · simp [tokenHere, hd] at h

/-- The capture group of the first match of the pattern
`(?:₺\s*)?(\d+(?:[.,]\d+)?)(?:\s*₺)?` (source line 121): the optional
currency-sign prefix/suffix never changes the captured group, so the first
match's group is the first numeric token of the text. -/
def firstNumericToken : List Char → Option (List Char × List Char)
  | [] => none
  | c :: cs =>
    match tokenHere (c :: cs) with
    | some (t, _) => some t
    | none => firstNumericToken cs

/-- `text.replace('\xa0', ' ').strip()` as done at source line 118. -/
def normText (s : String) : List Char :=
  pyStrip (s.toList.map fun c => if c == nbsp then ' ' else c)

/-- `extract_price_from_text` (source lines 112–132): find the first numeric
token, normalize `,` to `.`, parse as a decimal and multiply by 100.  The
Python function returns a float; it is modelled exactly over `ℚ`. -/
def extract_price_from_text (s : String) : ℚ :=
  if s = "" then 0
  else
    match firstNumericToken (normText s) with
    | some (ip, fp) => decimalVal ip fp * 100
    | none => 0

/-! ## `format_price` (source lines 313–322) -/

/-- Digit character for a value `d < 10`. -/
def digChar (d : ℕ) : Char := Char.ofNat (48 + d)

/-- Decimal digit expansion, accumulator form. -/
def natDigsGo : ℕ → List Char → List Char
  | 0, acc => acc
  | n + 1, acc => natDigsGo ((n + 1) / 10) (digChar ((n + 1) % 10) :: acc)
termination_by n _ => n
decreasing_by
  exact Nat.div_lt_self (Nat.succ_pos n) (by omega)

/-- Decimal digit expansion of a natural number, most significant first. -/
def natDigits (n : ℕ) : List Char :=
  if n = 0 then ['0'] else natDigsGo n []

/-- `format_price` (source lines 313–322): non-positive price renders the
placeholder `"$9.99"`; otherwise major-unit decimal with two fractional
digits.  Python renders via `f"${cents/100:.2f}"`; for prices in the range
where the float `cents/100` is faithful this is the exact decimal rendering
modelled here. -/
def format_price (price_in_cents : Int) : String :=
  if price_in_cents ≤ 0 then "$9.99"
  else
    let cents := price_in_cents.toNat
    "$" ++ String.mk (natDigits (cents / 100)) ++ "." ++
      String.mk [digChar (cents % 100 / 10), digChar (cents % 100 % 10)]

/-- The `₺\s*(\d+(?:[.,]\d+)?)` token scan of source line 252 (`re.findall`),
fuel-indexed so that the recursion is structural: after a match the scan
resumes right after the token; a `₺` not followed by (whitespace then) a
digit matches nothing and the scan resumes at the next character.  One unit
of fuel is spent per character position, so starting fuel `l.length` never
runs out; `liraTokensGo_fuel` shows the result is fuel-independent. -/
def liraTokensGo : ℕ → List Char → List (List Char × List Char)
  | 0, _ => []
  | _ + 1, [] => []
  | fuel + 1, c :: cs =>
    if c == '₺' then
      match tokenHere (cs.dropWhile pyWs) with
      | some (t, rest) => t :: liraTokensGo fuel rest
      | none => liraTokensGo fuel cs
    else liraTokensGo fuel cs

theorem liraTokensGo_fuel :
    ∀ f1 f2 (l : List Char), l.length ≤ f1 → l.length ≤ f2 →
      liraTokensGo f1 l = liraTokensGo f2 l := by
  intro f1
  induction f1 with
  | zero =>
    intro f2 l h1 _
    match l, h1 with
    | [], _ => cases f2 <;> rfl
  | succ f ih =>
    intro f2 l h1 h2
    match l with
    | [] => cases f2 <;> rfl
    | c :: cs =>
      simp only [List.length_cons] at h1 h2
      match f2 with
      | 0 => omega
      | g + 1 =>
        simp only [liraTokensGo]
        by_cases hc : (c == '₺') = true
        · simp only [hc, if_true]
          rcases ht : tokenHere (cs.dropWhile pyWs) with - | ⟨t, rest⟩
          · dsimp only
            exact ih g cs (by omega) (by omega)
          · dsimp only
            have hlt : rest.length < (cs.dropWhile pyWs).length := tokenHere_rest_lt ht
            have hle : (cs.dropWhile pyWs).length ≤ cs.length := dropWhile_length_le _ _
            rw [ih g rest (by omega) (by omega)]
        · simp only [hc, Bool.false_eq_true, if_false]
          exact ih g cs (by omega) (by omega)

/-- All `₺`-tagged tokens of a text. -/
def liraTokens (l : List Char) : List (List Char × List Char) :=
  liraTokensGo l.length l

/-! ## Python `int(...)` on the cleaned discount text -/

/-- Tail of a Python integer literal: digits possibly separated by single
underscores (an underscore must sit between two digits). -/
def usTail : List Char → Bool
  | [] => true
  | c :: rest =>
    if c == '_' then
      match rest with
      | d :: r => d.isDigit && usTail r
      | [] => false
    else c.isDigit && usTail rest

/-- A valid unsigned Python integer literal body (ASCII digits, optional
single underscores between digits). -/
def usOk : List Char → Bool
  | [] => false
  | c :: rest => c.isDigit && usTail rest

/-- Python `int(text)` for the cleaned discount text (all `'-'` were removed
upstream, so only an optional `'+'` sign can remain): strips whitespace,
accepts digits with underscore separators, otherwise raises (`none`).
Unicode digit classes beyond ASCII are not modelled. -/
def pyIntNat (l : List Char) : Option ℕ :=
  let l1 := pyStrip l
  let l2 := match l1 with | '+' :: r => r | _ => l1
  if usOk l2 then some (digitsVal (l2.filter fun c => !(c == '_'))) else none

/-- Python `int(...)` truncation of a rational toward zero (both operands of
the `Int` division below are non-negative, where every division convention
agrees with truncation). -/
def truncQ (q : ℚ) : Int :=
  if 0 ≤ q.num then q.num / (q.den : Int) else -((-q.num) / (q.den : Int))

/-- Substring containment (`pat` occurs contiguously in the text),
as Python's `in` on strings. -/
def leadsWith : List Char → List Char → Bool
  | [], _ => true
  | _ :: _, [] => false
  | p :: ps, c :: cs => p == c && leadsWith ps cs

/-- `pat in s` for strings, scanning left to right. -/
def hasSub (pat : List Char) : List Char → Bool
  | [] => leadsWith pat []
  | c :: cs => leadsWith pat (c :: cs) || hasSub pat cs

/-! ## The parsed-markup model (BeautifulSoup trees) -/

/-- A parsed HTML node: an element with tag, attributes and children, or a
text node.  `BeautifulSoup(html, 'html.parser')` itself is not modelled; a
`Markup` value pairs the raw text with its parse tree. -/
inductive Node where
  | elem (tag : String) (attrs : List (String × String)) (children : List Node)
  | text (s : String)

/- `.text` of a tag: concatenation of all descendant strings in order. -/
mutual
def Node.allText : Node → String
  | .text s => s
  | .elem _ _ cs => allTextList cs
def allTextList : List Node → String
  | [] => ""
  | n :: ns => n.allText ++ allTextList ns
end

/- All nodes of a subtree in document (preorder) order, each paired with its
ancestor chain (nearest first); the chain of a root child also records the
root element, so for per-element selects the scope element itself counts as a
possible ancestor, as CSS descendant matching does. -/
mutual
def dwaNode : List Node → Node → List (Node × List Node)
  | _, .text _ => []
  | anc, .elem t a cs => dwaList (Node.elem t a cs :: anc) cs
def dwaList : List Node → List Node → List (Node × List Node)
  | _, [] => []
  | anc, n :: ns => (n, anc) :: (dwaNode anc n ++ dwaList anc ns)
end

/- Structural equality, as bs4's `Tag.__eq__` (same name, attributes and
contents) and `NavigableString.__eq__`. -/
mutual
def nodeEq : Node → Node → Bool
  | .text s, .text t => s == t
  | .elem t1 a1 c1, .elem t2 a2 c2 => t1 == t2 && a1 == a2 && nodesEq c1 c2
  | .text _, .elem _ _ _ => false
  | .elem _ _ _, .text _ => false
def nodesEq : List Node → List Node → Bool
  | [], [] => true
  | x :: xs, y :: ys => nodeEq x y && nodesEq xs ys
  | [], _ :: _ => false
  | _ :: _, [] => false
end

/-- The attribute list of a node (text nodes have none). -/
def Node.nAttrs : Node → List (String × String)
  | .elem _ a _ => a
  | .text _ => []

/-- `tag.get(key)`: the attribute value, if present. -/
def getAttr (n : Node) (k : String) : Option String :=
  (n.nAttrs.find? fun p => p.1 == k).map (·.2)

/-- CSS `[key]`: the attribute key is present (any value). -/
def hasAttrKey (n : Node) (k : String) : Bool := (getAttr n k).isSome

/-- The attribute has exactly this value. -/
def attrEq (n : Node) (k v : String) : Bool := getAttr n k == some v

/-- The node is an element with this tag name. -/
def tagIs : Node → String → Bool
  | .elem t _ _, s => t == s
  | .text _, _ => false

/-- Split a `class` attribute value on whitespace (accumulator holds the
current word reversed). -/
def classTokens (acc : List Char) : List Char → List String
  | [] => if acc.isEmpty then [] else [String.mk acc.reverse]
  | c :: cs =>
    if c.isWhitespace then
      if acc.isEmpty then classTokens [] cs
      else String.mk acc.reverse :: classTokens [] cs
    else classTokens (c :: acc) cs

/-- CSS `.c`: the whitespace-separated `class` attribute contains `c`. -/
def classIs (n : Node) (c : String) : Bool :=
  match getAttr n "class" with
  | some s => (classTokens [] s.toList).contains c
  | none => false

/-- Some ancestor in the recorded chain has the class. -/
def ancHasClass (anc : List Node) (c : String) : Bool := anc.any (classIs · c)

/-- `element.select_one(...)`: the first proper descendant, in document
order, satisfying the predicate (which may inspect the ancestor chain for
descendant combinators). -/
def selOne (root : Node) (p : Node → List Node → Bool) : Option Node :=
  ((dwaNode [] root).find? fun q => p q.1 q.2).map (·.1)

/-! ## The extractor's record and collaborator types -/

/-- The canonical discounted-item record appended at source lines 300–306. -/
structure Game where
  id : String
  name : String
  discount_percent : Int
  original_price : Int
  final_price : Int
deriving DecidableEq, Repr

/-- The `price_overview` object of the detail API with the `.get(..., 0)`
defaults already folded in (`initial`, `final`, `discount_percent`). -/
structure ApiPrice where
  initial : Int
  final : Int
  discount_percent : Int

/-- A fetched page: the raw markup text together with its parse tree. -/
structure Markup where
  raw : String
  soup : List Node

/-! ## Per-candidate field extraction (source lines 178–309) -/

/-- `s` truthy (non-empty) or dropped, for Python's `if not app_id`. -/
def truthyStr (o : Option String) : Option String :=
  match o with
  | some s => if s = "" then none else some s
  | none => none

/-- Python `str.isdigit()` (ASCII): non-empty and all digits. -/
def isDigitStr (s : String) : Bool := !s.isEmpty && s.toList.all Char.isDigit

/-- App-identifier resolution (source lines 180–196): `data-ds-appid`, then
`data-appid`, then the `app/<id>/` segment of `href` when purely numeric. -/
def resolveAppId (game : Node) : Option String :=
  match truthyStr (getAttr game "data-ds-appid") with
  | some s => some s
  | none =>
    match truthyStr (getAttr game "data-appid") with
    | some s => some s
    | none =>
      let href := (getAttr game "href").getD ""
      if hasSub "app/".toList href.toList then
        let m := (((href.splitOn "app/").getD 1 "").splitOn "/").getD 0 ""
        if isDigitStr m then some m else none
      else none

/-- Name resolution (source lines 198–204): first selector that finds an
element wins, default `"Unknown Game"`. -/
def resolveName (game : Node) : String :=
  let sel :=
    (selOne game fun n _ => classIs n "title").orElse fun _ =>
    (selOne game fun n anc =>
      classIs n "search_name" && ancHasClass anc "responsive_search_name_combined").orElse fun _ =>
    (selOne game fun n _ => classIs n "search_name").orElse fun _ =>
    selOne game fun n _ => tagIs n "span" && classIs n "title"
  match sel with
  | some el => pyStripStr el.allText
  | none => "Unknown Game"

/-- One discount selector attempt: parse `int(text.strip().replace('-','')
.replace('%',''))` of the selected element's text. -/
def discountFromText (t : String) : Option ℕ :=
  pyIntNat ((pyStrip t.toList).filter fun c => !(c == '-') && !(c == '%'))

/-- Discount resolution (source lines 206–217): try the selectors in order;
a selector whose element is found but whose text fails `int(...)` falls
through to the next selector; result `0` when everything fails. -/
def tryDiscount (game : Node) : List (Node → Option Node) → Int
  | [] => 0
  | s :: ss =>
    match s game with
    | some el =>
      match discountFromText el.allText with
      | some v => (v : Int)
      | none => tryDiscount game ss
    | none => tryDiscount game ss

/-- The three discount selectors `.discount_pct`,
`.discount_block .discount_pct`, `.search_discount span`. -/
def discountSelectors : List (Node → Option Node) :=
  [ fun g => selOne g fun n _ => classIs n "discount_pct",
    fun g => selOne g fun n anc =>
      classIs n "discount_pct" && ancHasClass anc "discount_block",
    fun g => selOne g fun n anc =>
      tagIs n "span" && ancHasClass anc "search_discount" ]

def resolveDiscount (game : Node) : Int := tryDiscount game discountSelectors

/-- The first price container among `.search_price`, `.discount_block`,
`.discount_prices` (source lines 228–233). -/
def priceContainer (game : Node) : Option Node :=
  (selOne game fun n _ => classIs n "search_price").orElse fun _ =>
  (selOne game fun n _ => classIs n "discount_block").orElse fun _ =>
  selOne game fun n _ => classIs n "discount_prices"

/-- `span.discount_original_price, span.original_price, strike`
(source line 237): first descendant matching any alternative. -/
def strikethroughOf (c : Node) : Option Node :=
  selOne c fun n _ =>
    (tagIs n "span" && classIs n "discount_original_price") ||
    (tagIs n "span" && classIs n "original_price") || tagIs n "strike"

/-- `span.discount_final_price, .discount_price` (source line 242). -/
def finalElemOf (c : Node) : Option Node :=
  selOne c fun n _ =>
    (tagIs n "span" && classIs n "discount_final_price") || classIs n "discount_price"

/-- Value of one `₺` token, as `float(tok.replace(',', '.'))`. -/
def tokVal (t : List Char × List Char) : ℚ := decimalVal t.1 t.2

/-- Price extraction inside the candidate (source lines 223–266): structured
original/final sub-elements of the price container, then the full-text `₺`
token fallback (two or more tokens → original/final; exactly one token →
final, with the original derived from the discount).  `none` models the
`ZeroDivisionError` of line 264 (discount exactly 100), which escapes to the
per-candidate handler and drops the candidate. -/
def resolvePrices (game : Node) (d : Int) : Option (ℚ × ℚ) :=
  match priceContainer game with
  | none => some (0, 0)
  | some c =>
    let op : ℚ := match strikethroughOf c with
      | some el => extract_price_from_text el.allText
      | none => 0
    let fp : ℚ := match finalElemOf c with
      | some el => extract_price_from_text el.allText
      | none => 0
    if op = 0 ∨ fp = 0 then
      match liraTokens (pyStrip c.allText.toList) with
      | t1 :: t2 :: _ => some (tokVal t1 * 100, tokVal t2 * 100)
      | [t1] =>
        let fp1 := tokVal t1 * 100
        if d > 0 then
          if d = 100 then none
          else some (fp1 / (1 - (d : ℚ) / 100), fp1)
        else some (op, fp1)
      | [] => some (op, fp)
    else some (op, fp)

/-- The detail-API price reconciliation (source lines 268–284): consulted
only when a price is still unresolved and the candidate is on the high-value
name allow-list or discounted more than 50%; the API's discount replaces the
parsed one when positive.  API failures leave everything unchanged. -/
def applyApi (api : String → Option ApiPrice) (app_id name : String)
    (d : Int) (op fp : ℚ) : Int × ℚ × ℚ :=
  if op ≤ 0 ∨ fp ≤ 0 then
    if name = "Kingdom Come: Deliverance II" ∨ name = "Elden Ring" ∨
        name = ("Baldur" ++ String.mk [Char.ofNat 39] ++ "s Gate 3") ∨ d > 50 then
      match api app_id with
      | some p =>
        (if p.discount_percent > 0 then p.discount_percent else d,
         (p.initial : ℚ), (p.final : ℚ))
      | none => (d, op, fp)
    else (d, op, fp)
  else (d, op, fp)

/-- Cross-derivation of a missing price (source lines 286–290).  `none`
models the `ZeroDivisionError` of line 290 (discount exactly 100 with only a
final price), which escapes to the per-candidate handler. -/
def derivePrices (d : Int) (op fp : ℚ) : Option (ℚ × ℚ) :=
  if op > 0 ∧ fp = 0 ∧ d > 0 then some (op, op * (1 - (d : ℚ) / 100))
  else if fp > 0 ∧ op = 0 ∧ d > 0 then
    if d = 100 then none else some (fp / (1 - (d : ℚ) / 100), fp)
  else some (op, fp)

/-- Final defaulting and record construction (source lines 295–306): a
non-positive original price becomes the placeholder `999`; a non-positive
final price is derived from the original and the discount; both prices are
truncated to `int`. -/
def mkGame (app_id name : String) (d : Int) (op fp : ℚ) : Game :=
  let op1 : ℚ := if op ≤ 0 then 999 else op
  let fp1 : ℚ := if fp ≤ 0 then op1 * (1 - (d : ℚ) / 100) else fp
  ⟨app_id, name, d, truncQ op1, truncQ fp1⟩

/-- One candidate element → one optional record (the body of the `for game in
game_rows` loop, source lines 178–309).  `none` covers the `continue`s
(unresolved identifier, non-positive discount) and the uncaught
`ZeroDivisionError`s swallowed by the per-candidate `except`. -/
def extractGame (api : String → Option ApiPrice) (game : Node) : Option Game :=
  match resolveAppId game with
  | none => none
  | some app_id =>
    let name := resolveName game
    let d0 := resolveDiscount game
    if d0 ≤ 0 then none
    else
      match resolvePrices game d0 with
      | none => none
      | some (op0, fp0) =>
        match applyApi api app_id name d0 op0 fp0 with
        | (d1, op1, fp1) =>
          match derivePrices d1 op1 fp1 with
          | none => none
          | some (op2, fp2) =>
            if d1 > 0 then some (mkGame app_id name d1 op2 fp2) else none

/-! ## Layout-strategy chain and page extraction (source lines 134–311) -/

/-- All elements of the soup in document order, with ancestor chains. -/
def soupElems (soup : List Node) : List (Node × List Node) := dwaList [] soup

/-- Last-resort strategy (source lines 167–174): for each `div.discount_pct`
walk up to the enclosing `a` element, de-duplicating structurally equal
parents as Python's `not in` does. -/
def collectParents : List (Node × List Node) → List Node → List Node
  | [], acc => acc
  | q :: rest, acc =>
    match q.2.find? (fun a => tagIs a "a") with
    | some p =>
      if acc.any (nodeEq p) then collectParents rest acc
      else collectParents rest (acc ++ [p])
    | none => collectParents rest acc

/-- The ordered layout-strategy chain (source lines 153–174): first strategy
with a non-empty element list wins. -/
def gameRows (soup : List Node) : List Node :=
  let r1 := ((soupElems soup).filter fun q =>
    tagIs q.1 "a" && (match q.2.head? with
      | some par => attrEq par "id" "search_resultsRows"
      | none => false)).map (·.1)
  if !r1.isEmpty then r1 else
  let r2 := ((soupElems soup).filter fun q => classIs q.1 "search_result_row").map (·.1)
  if !r2.isEmpty then r2 else
  let r3 := ((soupElems soup).filter fun q => hasAttrKey q.1 "data-ds-appid").map (·.1)
  if !r3.isEmpty then r3 else
  let r4 := ((soupElems soup).filter fun q =>
    tagIs q.1 "div" && classIs q.1 "responsive_search_name_combined").map (·.1)
  if !r4.isEmpty then r4 else
  collectParents ((soupElems soup).filter fun q =>
    tagIs q.1 "div" && classIs q.1 "discount_pct") []

/-- The site-error marker checked at source line 140. -/
def siteErrorMarker : String := "<title>Site Error</title>"

/-- `extract_games_from_store_page` (source lines 134–311): falsy markup and
site-error pages yield `[]` immediately; otherwise the layout chain selects
candidate elements and each is extracted best-effort in order. -/
def extract_games_from_store_page (api : String → Option ApiPrice)
    (m : Markup) : List Game :=
  if m.raw = "" then []
  else if hasSub siteErrorMarker.toList m.raw.toList then []
  else (gameRows m.soup).filterMap (extractGame api)

/-! ## Reporter sort (source lines 324–327) -/

/-- A raw report item as the reporter sees it: a Python dict (string keys,
integer values); `Option` distinguishes `None` entries, and the empty list
models a falsy (empty) dict.  Records produced by the extractor always carry
integer `discount_percent` values, so values are modelled as `Int`. -/
abbrev RawItem := List (String × Int)

/-- `"discount_percent" in item`. -/
def hasDiscountKey (d : RawItem) : Bool :=
  (d.find? fun p => p.1 == "discount_percent").isSome

/-- `int(x.get("discount_percent", 0))`. -/
def keyOf (d : RawItem) : Int :=
  ((d.find? fun p => p.1 == "discount_percent").map (·.2)).getD 0

/-- The comprehension `[item for item in items if item and "discount_percent"
in item]` (source line 326). -/
def validItems (items : List (Option RawItem)) : List RawItem :=
  items.filterMap fun o =>
    match o with
    | none => none
    | some d => if d.isEmpty then none else if hasDiscountKey d then some d else none

/-- Stable insertion for a descending sort: an element keeps walking past
strictly larger keys and lands before equal ones, preserving input order on
ties exactly as Python's stable `sorted(..., reverse=True)` does. -/
def insertDesc (x : RawItem) : List RawItem → List RawItem
  | [] => [x]
  | y :: ys => if keyOf x < keyOf y then y :: insertDesc x ys else x :: y :: ys

/-- The unique stable descending sort by `discount_percent` — extensionally
equal to `sorted(valid_items, key=..., reverse=True)` (source line 327),
since a stable sort under a fixed key is unique. -/
def stableSortDesc : List RawItem → List RawItem
  | [] => []
  | x :: xs => insertDesc x (stableSortDesc xs)

/-- `sort_items_by_discount` (source lines 324–327). -/
def sort_items_by_discount (items : List (Option RawItem)) : List RawItem :=
  stableSortDesc (validItems items)

/-! ## Batch controller (source lines 452–548) -/

/-- The de-duplication pass of source lines 506–513: keep the first
occurrence of every truthy identifier, drop later duplicates entirely. -/
def dedupGo (seen : List String) : List Game → List Game
  | [] => []
  | g :: gs =>
    if g.id ≠ "" ∧ g.id ∉ seen then g :: dedupGo (g.id :: seen) gs
    else dedupGo seen gs

/-- `unique_items` recomputed from the accumulated `all_items`. -/
def dedupById (items : List Game) : List Game := dedupGo [] items

/-- The inner `for i in range(results_interval)` loop (source lines
468–504) with fetch and extraction composed into one oracle
`pageOracle : page ↦ none (fetch failure) | some extractedItems`.  Returns
the fetched pages (in order), the accumulated items, and the next value of
`page` (`max_pages + 1` encodes the early-exit assignments of lines 483 and
491). -/
def innerBatch (orc : ℕ → Option (List Game)) (maxPages : ℕ) :
    ℕ → ℕ → List ℕ → List Game → List ℕ × List Game × ℕ
  | 0, page, fetched, items => (fetched, items, page)
  | i + 1, page, fetched, items =>
    if page > maxPages then (fetched, items, page)
    else
      match orc page with
      | none => (fetched ++ [page], items, maxPages + 1)
      | some pr =>
        if pr.isEmpty then (fetched ++ [page], items, maxPages + 1)
        else innerBatch orc maxPages i (page + 1) (fetched ++ [page]) (items ++ pr)

theorem innerBatch_page_le (orc : ℕ → Option (List Game)) (maxPages : ℕ) :
    ∀ i page fetched items,
      page ≤ (innerBatch orc maxPages i page fetched items).2.2 := by
  intro i
  induction i with
  | zero => intro page fetched items; simp [innerBatch]
  | succ i ih =>
    intro page fetched items
    simp only [innerBatch]
    by_cases hp : page > maxPages
    · simp [hp]
    · simp only [hp, if_false]
      match orc page with
      | none => simp; omega
      | some pr =>
        by_cases he : pr.isEmpty
        · simp [he]; omega
        · simp only [he, Bool.false_eq_true, if_false]
          exact Nat.le_trans (Nat.le_succ page) (ih (page + 1) _ _)

theorem innerBatch_page_advance (orc : ℕ → Option (List Game)) (maxPages : ℕ)
    (i page : ℕ) (fetched : List ℕ) (items : List Game)
    (hi : 0 < i) (hp : page ≤ maxPages) :
    page + 1 ≤ (innerBatch orc maxPages i page fetched items).2.2 := by
  match i, hi with
  | i + 1, _ =>
    simp only [innerBatch]
    have hgt : ¬ page > maxPages := by omega
    simp only [hgt, if_false]
    match orc page with
    | none => simp; omega
    | some pr =>
      by_cases he : pr.isEmpty
      · simp [he]; omega
      · simp only [he, Bool.false_eq_true, if_false]
        exact innerBatch_page_le orc maxPages i (page + 1) _ _

/-- The outer `while page <= max_pages` loop (source lines 460–548): run a
batch, then recompute `unique_items` from the accumulated items; the final
`unique_items` is returned together with the list of pages actually fetched.
The inter-request sleeps and console reporting are side effects with no
bearing on the returned data and are not modelled. -/
def runPages (orc : ℕ → Option (List Game)) (maxPages interval : ℕ)
    (hi : 0 < interval) (page : ℕ) (fetched : List ℕ) (items uniq : List Game) :
    List ℕ × List Game :=
  if h : page ≤ maxPages then
    let r := innerBatch orc maxPages interval page fetched items
    runPages orc maxPages interval hi r.2.2 r.1 r.2.1 (dedupById r.2.1)
  else (fetched, uniq)
termination_by maxPages + 1 - page
decreasing_by
  have := innerBatch_page_advance orc maxPages interval page fetched items hi h
  omega

/-- `get_all_discounted_games(max_pages, results_interval)` (source lines
452–548), with the page fetcher and extractor composed into `orc`; returns
the fetched page numbers and the deduplicated result set. -/
def get_all_discounted_games (orc : ℕ → Option (List Game))
    (maxPages interval : ℕ) (hi : 0 < interval) : List ℕ × List Game :=
  runPages orc maxPages interval hi 1 [] [] []

/-! ## Concrete markups for the spec's end-to-end scenarios -/

/-- The everything-fails API oracle. -/
def apiNone : String → Option ApiPrice := fun _ => none

/-- A `div.discount_pct` badge with the given text. -/
def divPct (t : String) : Node := .elem "div" [("class", "discount_pct")] [.text t]

/-- Scenario A markup: one result element with `data-ds-appid="100"`,
discount `-75%`, structured original/final price sub-elements. -/
def markupA : Markup :=
  ⟨"<html>",
   [.elem "a" [("data-ds-appid", "100")]
     [divPct "-75%",
      .elem "div" [("class", "search_price")]
        [.elem "span" [("class", "discount_original_price")] [.text "₺100,00"],
         .elem "span" [("class", "discount_final_price")] [.text "₺25,00"]]]]⟩

/-- Scenario B markup: as A, but the structured price elements are missing
and both amounts appear only in the container's full text. -/
def markupB : Markup :=
  ⟨"<html>",
   [.elem "a" [("data-ds-appid", "100")]
     [divPct "-75%",
      .elem "div" [("class", "search_price")] [.text "₺100,00 ₺25,00"]]]⟩

/-- The record both scenarios must produce. -/
def game100 : Game := ⟨"100", "Unknown Game", 75, 10000, 2500⟩

/-- `int(...)` truncation toward zero, written with floor and ceiling. -/
theorem truncQ_eq (q : ℚ) : truncQ q = if 0 ≤ q then ⌊q⌋ else ⌈q⌉ := by
  unfold truncQ
  by_cases h : 0 ≤ q
  · rw [if_pos (Rat.num_nonneg.mpr h), if_pos h, Rat.floor_def]
  · rw [if_neg (fun hn => h (Rat.num_nonneg.mp hn)), if_neg h]
    have h2 : ⌊-q⌋ = (-q).num / ((-q).den : Int) := Rat.floor_def
    rw [Rat.neg_num, Rat.neg_den] at h2
    rw [← h2, Int.floor_neg, neg_neg]

/-- The structured original-price span of scenario A. -/
def spanO : Node := .elem "span" [("class", "discount_original_price")] [.text "₺100,00"]

/-- The structured final-price span of scenario A. -/
def spanF : Node := .elem "span" [("class", "discount_final_price")] [.text "₺25,00"]

/-- Scenario A price container. -/
def priceDivA : Node := .elem "div" [("class", "search_price")] [spanO, spanF]

/-- Scenario A result element. -/
def gA : Node := .elem "a" [("data-ds-appid", "100")] [divPct "-75%", priceDivA]

/-- Scenario B price container: amounts only in the full text. -/
def priceDivB : Node := .elem "div" [("class", "search_price")] [.text "₺100,00 ₺25,00"]

/-- Scenario B result element. -/
def gB : Node := .elem "a" [("data-ds-appid", "100")] [divPct "-75%", priceDivB]

theorem epft100 : extract_price_from_text "₺100,00" = 10000 := by
  have h : firstNumericToken (normText "₺100,00") = some (['1','0','0'], ['0','0']) := rfl
  have d1 : digitsVal ['1','0','0'] = 100 := rfl
  have d2 : digitsVal ['0','0'] = 0 := rfl
  unfold extract_price_from_text
  rw [if_neg (by decide), h]
  dsimp only
  unfold decimalVal
  rw [d1, d2]
  norm_num

theorem epft25 : extract_price_from_text "₺25,00" = 2500 := by
  have h : firstNumericToken (normText "₺25,00") = some (['2','5'], ['0','0']) := rfl
  have d1 : digitsVal ['2','5'] = 25 := rfl
  have d2 : digitsVal ['0','0'] = 0 := rfl
  unfold extract_price_from_text
  rw [if_neg (by decide), h]
  dsimp only
  unfold decimalVal
  rw [d1, d2]
  norm_num

theorem extract_eval_A (api : String → Option ApiPrice) :
    extract_games_from_store_page api markupA = [game100] := by
  have hrows : gameRows markupA.soup = [gA] := rfl
  have hid : resolveAppId gA = some "100" := rfl
  have hname : resolveName gA = "Unknown Game" := rfl
  have hdisc : resolveDiscount gA = 75 := rfl
  have hcont : priceContainer gA = some priceDivA := rfl
  have hstr : strikethroughOf priceDivA = some spanO := rfl
  have hfin : finalElemOf priceDivA = some spanF := rfl
  have hto : spanO.allText = "₺100,00" := rfl
  have htf : spanF.allText = "₺25,00" := rfl
  have hprices : resolvePrices gA 75 = some (10000, 2500) := by
    unfold resolvePrices
    rw [hcont]
    simp only [hstr, hfin, hto, htf, epft100, epft25]
    norm_num
  have hgame : extractGame api gA = some game100 := by
    unfold extractGame
    rw [hid, hname, hdisc]
    simp only [hprices]
    norm_num [applyApi, derivePrices, mkGame, truncQ_eq, game100]
  show (gameRows markupA.soup).filterMap (extractGame api) = [game100]
  rw [hrows]
  simp [hgame]

theorem extract_eval_B (api : String → Option ApiPrice) :
    extract_games_from_store_page api markupB = [game100] := by
  have hrows : gameRows markupB.soup = [gB] := rfl
  have hid : resolveAppId gB = some "100" := rfl
  have hname : resolveName gB = "Unknown Game" := rfl
  have hdisc : resolveDiscount gB = 75 := rfl
  have hcont : priceContainer gB = some priceDivB := rfl
  have hstr : strikethroughOf priceDivB = none := rfl
  have hfin : finalElemOf priceDivB = none := rfl
  have hlt : liraTokens (pyStrip priceDivB.allText.toList) =
      [(['1','0','0'], ['0','0']), (['2','5'], ['0','0'])] := rfl
  have hprices : resolvePrices gB 75 = some (10000, 2500) := by
    unfold resolvePrices
    rw [hcont]
    simp only [hstr, hfin, hlt]
    norm_num [tokVal]
    constructor
    · have d1 : digitsVal ['1','0','0'] = 100 := rfl
      have d2 : digitsVal ['0','0'] = 0 := rfl
      unfold decimalVal; rw [d1, d2]; norm_num
    · have d1 : digitsVal ['2','5'] = 25 := rfl
      have d2 : digitsVal ['0','0'] = 0 := rfl
      unfold decimalVal; rw [d1, d2]; norm_num
  have hgame : extractGame api gB = some game100 := by
    unfold extractGame
    rw [hid, hname, hdisc]
    simp only [hprices]
    norm_num [applyApi, derivePrices, mkGame, truncQ_eq, game100]
  show (gameRows markupB.soup).filterMap (extractGame api) = [game100]
  rw [hrows]
  simp [hgame]

/-- C1: for scenario A (structured original/final sub-elements) and
scenario B (final-price element missing, both amounts only in the
container's full text, resolved by the two-token fallback),
`extract_games_from_store_page` returns exactly the record
`{id:"100", discount_percent:75, original_price:10000, final_price:2500}`
(with the defaulted name), whatever the detail API answers. -/
theorem c1_end_to_end (api : String → Option ApiPrice) :
    extract_games_from_store_page api markupA = [game100] ∧
    extract_games_from_store_page api markupB = [game100] :=
  ⟨extract_eval_A api, extract_eval_B api⟩

/-! ## C2: the price parser -/

theorem decimalVal_nonneg (ip fp : List Char) : 0 ≤ decimalVal ip fp := by
  unfold decimalVal
  positivity

theorem firstNumericToken_of_no_digit {l : List Char}
    (h : ∀ c ∈ l, c.isDigit = false) : firstNumericToken l = none := by
  induction l with
  | nil => rfl
  | cons c cs ih =>
    have hc := h c (List.mem_cons_self _ _)
    simp only [firstNumericToken, tokenHere, hc, Bool.false_eq_true, if_false]
    exact ih fun x hx => h x (List.mem_cons_of_mem _ hx)

/-- C2 (amended): for every input the price parser returns a non-negative
rational — `100` times the value of the first numeric token — and empty or
non-matching input (no digit anywhere) yields `0`; the function is total, so
no exception is ever raised.  (The original claim's "integer" is refuted by
`c2_counterexample`: the Python function returns `float(...) * 100` without
truncation, which is fractional for tokens with three or more fractional
digits.) -/
theorem c2_parser_contract (s : String) :
    0 ≤ extract_price_from_text s ∧
    extract_price_from_text "" = 0 ∧
    ((∀ c ∈ normText s, c.isDigit = false) → extract_price_from_text s = 0) := by
  refine ⟨?_, rfl, ?_⟩
  · unfold extract_price_from_text
    split
    · exact le_refl 0
    · match firstNumericToken (normText s) with
      | some (ip, fp) =>
        have := decimalVal_nonneg ip fp
        positivity
      | none => exact le_refl 0
  · intro h
    unfold extract_price_from_text
    split
    · rfl
    · rw [firstNumericToken_of_no_digit h]

/-- C2 counterexample: on input `"1.999"` the parser returns `199.9`, which
is not an integer, refuting "returns a non-negative integer amount" as
stated (the Python function returns `float(...) * 100` untruncated). -/
theorem c2_counterexample :
    extract_price_from_text "1.999" = 1999 / 10 ∧
    ∀ n : ℤ, extract_price_from_text "1.999" ≠ (n : ℚ) := by
  have h : firstNumericToken (normText "1.999") = some (['1'], ['9','9','9']) := rfl
  have he : extract_price_from_text "1.999" = 1999 / 10 := by
    unfold extract_price_from_text
    rw [if_neg (by decide), h]
    dsimp only
    have d1 : digitsVal ['1'] = 1 := rfl
    have d2 : digitsVal ['9','9','9'] = 999 := rfl
    unfold decimalVal
    rw [d1, d2]
    norm_num
  refine ⟨he, fun n hn => ?_⟩
  rw [he, div_eq_iff (by norm_num : (10 : ℚ) ≠ 0)] at hn
  have : (1999 : ℤ) = n * 10 := by exact_mod_cast hn
  omega

/-- C2 witness: the contract applied at the concrete non-matching input
`"abc"`. -/
theorem c2_witness : extract_price_from_text "abc" = 0 :=
  (c2_parser_contract "abc").2.2 (by decide)

/-! ## C3 and C4: invariants of the emitted records -/

theorem truncQ_nonneg {q : ℚ} (h : 0 ≤ q) : 0 ≤ truncQ q := by
  rw [truncQ_eq, if_pos h]
  exact Int.floor_nonneg.mpr h

theorem mkGame_discount_percent (i nm : String) (d : Int) (op fp : ℚ) :
    (mkGame i nm d op fp).discount_percent = d := rfl

theorem mkGame_original_nonneg (i nm : String) (d : Int) (op fp : ℚ) :
    0 ≤ (mkGame i nm d op fp).original_price := by
  unfold mkGame
  dsimp only
  by_cases h : op ≤ 0
  · rw [if_pos h]; exact truncQ_nonneg (by norm_num)
  · rw [if_neg h]; exact truncQ_nonneg (le_of_lt (lt_of_not_le h))

theorem mkGame_final_nonneg (i nm : String) (d : Int) (op fp : ℚ)
    (hd : 0 < d) (hle : d ≤ 100) : 0 ≤ (mkGame i nm d op fp).final_price := by
  unfold mkGame
  dsimp only
  have hop : (0 : ℚ) < if op ≤ 0 then 999 else op := by
    by_cases h : op ≤ 0
    · rw [if_pos h]; norm_num
    · rw [if_neg h]; exact lt_of_not_le h
  by_cases hf : fp ≤ 0
  · rw [if_pos hf]
    refine truncQ_nonneg (mul_nonneg (le_of_lt hop) ?_)
    have : ((d : ℚ)) / 100 ≤ 1 := by
      rw [div_le_one (by norm_num)]
      exact_mod_cast hle
    linarith
  · rw [if_neg hf]
    exact truncQ_nonneg (le_of_lt (lt_of_not_le hf))

/-- Every record some candidate yields comes out of `mkGame` with a positive
discount: the record-shape lemma behind the emitted-record invariants. -/
theorem extractGame_shape (api : String → Option ApiPrice) (g : Node) (r : Game)
    (h : extractGame api g = some r) :
    ∃ i nm d op fp, 0 < d ∧ r = mkGame i nm d op fp := by
  unfold extractGame at h
  rcases hid : resolveAppId g with - | app_id
  · rw [hid] at h; simp at h
  · rw [hid] at h
    dsimp only at h
    split at h
    · simp at h
    · rcases hrp : resolvePrices g (resolveDiscount g) with - | ⟨op0, fp0⟩
      · rw [hrp] at h; simp at h
      · rw [hrp] at h
        dsimp only at h
        rcases hap : applyApi api app_id (resolveName g) (resolveDiscount g) op0 fp0
          with ⟨d1, op1, fp1⟩
        rw [hap] at h
        dsimp only at h
        rcases hdp : derivePrices d1 op1 fp1 with - | ⟨op2, fp2⟩
        · rw [hdp] at h; simp at h
        · rw [hdp] at h
          dsimp only at h
          split at h
          · rename_i hd1
            exact ⟨app_id, resolveName g, d1, op2, fp2, hd1, (Option.some.inj h).symm⟩
          · simp at h

/-- C3 (amended): every emitted record has `original_price ≥ 0`, and
`final_price ≥ 0` whenever its `discount_percent` is at most 100, for every
markup and every API behavior.  The strict bounds claimed do not hold (see
`c3_counterexample`): sub-cent prices truncate to `0`, a `-100%` discount
with the placeholder original yields `final_price = 0`, and a discount above
100% yields a negative derived final price. -/
theorem c3_price_bounds (api : String → Option ApiPrice) (m : Markup) :
    ∀ g ∈ extract_games_from_store_page api m,
      0 ≤ g.original_price ∧ (g.discount_percent ≤ 100 → 0 ≤ g.final_price) := by
  intro g hg
  unfold extract_games_from_store_page at hg
  split at hg
  · simp at hg
  · split at hg
    · simp at hg
    · rw [List.mem_filterMap] at hg
      obtain ⟨row, -, hrow⟩ := hg
      obtain ⟨i, nm, d, op, fp, hd, rfl⟩ := extractGame_shape api row g hrow
      rw [mkGame_discount_percent]
      exact ⟨mkGame_original_nonneg i nm d op fp,
             fun hle => mkGame_final_nonneg i nm d op fp hd hle⟩

/-- C3 witness: the bounds applied to the scenario-A record. -/
theorem c3_witness :
    0 ≤ game100.original_price ∧
    (game100.discount_percent ≤ 100 → 0 ≤ game100.final_price) :=
  c3_price_bounds apiNone markupA game100
    (by rw [extract_eval_A]; exact List.mem_singleton.mpr rfl)

/-- A `-100%` candidate with no price markup at all. -/
def gD100 : Node := .elem "a" [("data-ds-appid", "1")] [divPct "-100%"]

/-- A sub-cent price span (`₺0,001` is a tenth of a minor unit). -/
def spanT : Node := .elem "span" [("class", "discount_original_price")] [.text "₺0,001"]

def spanT2 : Node := .elem "span" [("class", "discount_final_price")] [.text "₺0,001"]

def priceDivT : Node := .elem "div" [("class", "search_price")] [spanT, spanT2]

/-- A `-50%` candidate whose prices are below one minor unit. -/
def gTiny : Node := .elem "a" [("data-ds-appid", "2")] [divPct "-50%", priceDivT]

/-- A `-150%` candidate with no price markup. -/
def gD150 : Node := .elem "a" [("data-ds-appid", "3")] [divPct "-150%"]

/-- Markup combining the three candidates that break the strict price
bounds. -/
def mC3 : Markup := ⟨"<html>", [gD100, gTiny, gD150]⟩

theorem epft0001 : extract_price_from_text "₺0,001" = 1 / 10 := by
  have h : firstNumericToken (normText "₺0,001") = some (['0'], ['0','0','1']) := rfl
  have d1 : digitsVal ['0'] = 0 := rfl
  have d2 : digitsVal ['0','0','1'] = 1 := rfl
  unfold extract_price_from_text
  rw [if_neg (by decide), h]
  dsimp only
  unfold decimalVal
  rw [d1, d2]
  norm_num

theorem extractGame_gD100 : extractGame apiNone gD100 = some ⟨"1", "Unknown Game", 100, 999, 0⟩ := by
  have hid : resolveAppId gD100 = some "1" := rfl
  have hname : resolveName gD100 = "Unknown Game" := rfl
  have hdisc : resolveDiscount gD100 = 100 := rfl
  have hprices : resolvePrices gD100 100 = some (0, 0) := rfl
  unfold extractGame
  rw [hid, hname, hdisc]
  simp only [hprices]
  norm_num [applyApi, apiNone, derivePrices, mkGame, truncQ_eq]

theorem extractGame_gTiny : extractGame apiNone gTiny = some ⟨"2", "Unknown Game", 50, 0, 0⟩ := by
  have hid : resolveAppId gTiny = some "2" := rfl
  have hname : resolveName gTiny = "Unknown Game" := rfl
  have hdisc : resolveDiscount gTiny = 50 := rfl
  have hcont : priceContainer gTiny = some priceDivT := rfl
  have hstr : strikethroughOf priceDivT = some spanT := rfl
  have hfin : finalElemOf priceDivT = some spanT2 := rfl
  have hto : spanT.allText = "₺0,001" := rfl
  have htf : spanT2.allText = "₺0,001" := rfl
  have hprices : resolvePrices gTiny 50 = some (1 / 10, 1 / 10) := by
    unfold resolvePrices
    rw [hcont]
    simp only [hstr, hfin, hto, htf, epft0001]
    norm_num
  unfold extractGame
  rw [hid, hname, hdisc]
  simp only [hprices]
  norm_num [applyApi, apiNone, derivePrices, mkGame, truncQ_eq]

theorem extractGame_gD150 : extractGame apiNone gD150 = some ⟨"3", "Unknown Game", 150, 999, -499⟩ := by
  have hid : resolveAppId gD150 = some "3" := rfl
  have hname : resolveName gD150 = "Unknown Game" := rfl
  have hdisc : resolveDiscount gD150 = 150 := rfl
  have hprices : resolvePrices gD150 150 = some (0, 0) := rfl
  have hm : mkGame "3" "Unknown Game" 150 0 0 = ⟨"3", "Unknown Game", 150, 999, -499⟩ := by
    unfold mkGame
    norm_num [truncQ_eq]
    rw [Int.ceil_neg]
    norm_num
  unfold extractGame
  rw [hid, hname, hdisc]
  simp only [hprices]
  norm_num [applyApi, apiNone, derivePrices]
  exact hm

theorem c3_eval : extract_games_from_store_page apiNone mC3 =
    [⟨"1", "Unknown Game", 100, 999, 0⟩, ⟨"2", "Unknown Game", 50, 0, 0⟩,
     ⟨"3", "Unknown Game", 150, 999, -499⟩] := by
  have hrows : gameRows mC3.soup = [gD100, gTiny, gD150] := rfl
  show (gameRows mC3.soup).filterMap (extractGame apiNone) = _
  rw [hrows]
  simp [List.filterMap_cons, extractGame_gD100, extractGame_gTiny, extractGame_gD150]

/-- C3 counterexample: on `mC3` (candidates with discount `-100%` and no
prices, with sub-cent prices, and with discount `-150%` and no prices) the
extractor emits records with `original_price = 0`, `final_price = 0`, and a
negative `final_price` (the latter only at a discount above 100%), refuting
the strict positivity claim and forcing the `discount_percent ≤ 100` proviso
of the amended bound. -/
theorem c3_counterexample :
    (∃ g ∈ extract_games_from_store_page apiNone mC3, ¬ 0 < g.original_price) ∧
    (∃ g ∈ extract_games_from_store_page apiNone mC3, ¬ 0 < g.final_price) ∧
    (∃ g ∈ extract_games_from_store_page apiNone mC3,
      100 < g.discount_percent ∧ g.final_price < 0) := by
  rw [c3_eval]
  refine ⟨⟨⟨"2", "Unknown Game", 50, 0, 0⟩, by simp, by norm_num⟩,
          ⟨⟨"1", "Unknown Game", 100, 999, 0⟩, by simp, by norm_num⟩,
          ⟨⟨"3", "Unknown Game", 150, 999, -499⟩, by simp, by norm_num⟩⟩

/-- C4 (amended): every emitted record has a positive integer
`discount_percent` (at least 1) — candidates whose discount resolves to `≤ 0`
(such as discount text `-0%`) are discarded — but the upper bound 100 of the
original claim is not enforced by the code (see `c4_counterexample`). -/
theorem c4_discount_positive (api : String → Option ApiPrice) (m : Markup) :
    ∀ g ∈ extract_games_from_store_page api m, 1 ≤ g.discount_percent := by
  intro g hg
  unfold extract_games_from_store_page at hg
  split at hg
  · simp at hg
  · split at hg
    · simp at hg
    · rw [List.mem_filterMap] at hg
      obtain ⟨row, -, hrow⟩ := hg
      obtain ⟨i, nm, d, op, fp, hd, rfl⟩ := extractGame_shape api row g hrow
      rw [mkGame_discount_percent]
      omega

/-- C4 witness: the positivity applied to the scenario-A record. -/
theorem c4_witness : 1 ≤ game100.discount_percent :=
  c4_discount_positive apiNone markupA game100
    (by rw [extract_eval_A]; exact List.mem_singleton.mpr rfl)

/-- A candidate with discount text `-150%` and regular structured prices. -/
def g150 : Node := .elem "a" [("data-ds-appid", "1")] [divPct "-150%", priceDivA]

/-- Markup for the discount-above-100 counterexample. -/
def m150 : Markup := ⟨"<html>", [g150]⟩

theorem extractGame_g150 :
    extractGame apiNone g150 = some ⟨"1", "Unknown Game", 150, 10000, 2500⟩ := by
  have hid : resolveAppId g150 = some "1" := rfl
  have hname : resolveName g150 = "Unknown Game" := rfl
  have hdisc : resolveDiscount g150 = 150 := rfl
  have hcont : priceContainer g150 = some priceDivA := rfl
  have hstr : strikethroughOf priceDivA = some spanO := rfl
  have hfin : finalElemOf priceDivA = some spanF := rfl
  have hto : spanO.allText = "₺100,00" := rfl
  have htf : spanF.allText = "₺25,00" := rfl
  have hprices : resolvePrices g150 150 = some (10000, 2500) := by
    unfold resolvePrices
    rw [hcont]
    simp only [hstr, hfin, hto, htf, epft100, epft25]
    norm_num
  unfold extractGame
  rw [hid, hname, hdisc]
  simp only [hprices]
  norm_num [applyApi, apiNone, derivePrices, mkGame, truncQ_eq]

theorem c4_eval : extract_games_from_store_page apiNone m150 =
    [⟨"1", "Unknown Game", 150, 10000, 2500⟩] := by
  have hrows : gameRows m150.soup = [g150] := rfl
  show (gameRows m150.soup).filterMap (extractGame apiNone) = _
  rw [hrows]
  simp [extractGame_g150]

/-- C4 counterexample: discount text `-150%` with ordinary structured prices
produces a record with `discount_percent = 150`, refuting the 1–100 range as
stated (no upper clamp exists in the code). -/
theorem c4_counterexample :
    ∃ g ∈ extract_games_from_store_page apiNone m150, 100 < g.discount_percent := by
  rw [c4_eval]
  exact ⟨⟨"1", "Unknown Game", 150, 10000, 2500⟩, by simp, by norm_num⟩

/-! ## C7: the extractor never raises and degrades to `[]` -/

/-- An error-page markup (raw text carries the site-error marker). -/
def errMarkup : Markup :=
  ⟨"<html><title>Site Error</title></html>",
   [.elem "a" [("data-ds-appid", "9")] [divPct "-50%"]]⟩

/-- C7: `extract_games_from_store_page` is a total function (no exception
can escape: per-candidate failures are `none`s of `extractGame`), and it
returns the empty sequence for empty input, for markup whose raw text
carries the site-error marker (before any field extraction — the candidate
chain is not consulted), and for markup on which every layout strategy
produces no candidate elements. -/
theorem c7_degrades_to_empty :
    (∀ (api : String → Option ApiPrice) (soup : List Node),
      extract_games_from_store_page api ⟨"", soup⟩ = []) ∧
    (∀ (api : String → Option ApiPrice) (m : Markup),
      hasSub siteErrorMarker.toList m.raw.toList = true →
      extract_games_from_store_page api m = []) ∧
    (∀ (api : String → Option ApiPrice) (m : Markup),
      gameRows m.soup = [] → extract_games_from_store_page api m = []) := by
  refine ⟨fun api soup => rfl, fun api m hm => ?_, fun api m hr => ?_⟩
  · have hne : ¬ (m.raw = "") := by
      intro h0
      rw [h0] at hm
      exact absurd hm (by decide)
    unfold extract_games_from_store_page
    rw [if_neg hne, if_pos hm]
  · unfold extract_games_from_store_page
    split
    · rfl
    · split
      · rfl
      · rw [hr]
        rfl

/-- C7 witness: the three degradations at concrete markups (empty input, an
error page carrying candidates that are never extracted, and markup whose
layout strategies all fail). -/
theorem c7_witness :
    extract_games_from_store_page apiNone ⟨"", []⟩ = [] ∧
    extract_games_from_store_page apiNone errMarkup = [] ∧
    extract_games_from_store_page apiNone ⟨"<html>", [.text "plain"]⟩ = [] :=
  ⟨c7_degrades_to_empty.1 apiNone [],
   c7_degrades_to_empty.2.1 apiNone errMarkup (by decide),
   c7_degrades_to_empty.2.2 apiNone ⟨"<html>", [.text "plain"]⟩ rfl⟩

/-! ## C5: deduplication keeps the first-seen record per identifier -/

theorem dedupGo_mem {seen : List String} {l : List Game} {x : Game}
    (hx : x ∈ dedupGo seen l) : x ∈ l ∧ x.id ∉ seen ∧ x.id ≠ "" := by
  induction l generalizing seen with
  | nil => simp [dedupGo] at hx
  | cons g gs ih =>
    unfold dedupGo at hx
    split at hx
    · rename_i hkeep
      rcases List.mem_cons.mp hx with rfl | hx2
      · exact ⟨List.mem_cons_self _ _, hkeep.2, hkeep.1⟩
      · obtain ⟨h1, h2, h3⟩ := ih hx2
        exact ⟨List.mem_cons_of_mem _ h1, fun hs => h2 (List.mem_cons_of_mem _ hs), h3⟩
    · obtain ⟨h1, h2, h3⟩ := ih hx
      exact ⟨List.mem_cons_of_mem _ h1, h2, h3⟩

theorem dedupGo_pairwise (seen : List String) (l : List Game) :
    List.Pairwise (fun a b => a.id ≠ b.id) (dedupGo seen l) := by
  induction l generalizing seen with
  | nil => exact List.Pairwise.nil
  | cons g gs ih =>
    unfold dedupGo
    split
    · refine List.Pairwise.cons (fun y hy => ?_) (ih _)
      have := (dedupGo_mem hy).2.1
      intro he
      exact this (he ▸ List.mem_cons_self _ _)
    · exact ih _

theorem dedupGo_find {seen : List String} {l : List Game} :
    ∀ g ∈ dedupGo seen l, l.find? (fun x => x.id == g.id) = some g := by
  induction l generalizing seen with
  | nil => simp [dedupGo]
  | cons h t ih =>
    intro g hg
    unfold dedupGo at hg
    split at hg
    · rcases List.mem_cons.mp hg with rfl | hg2
      · exact List.find?_cons_of_pos _ (by simp)
      · have hne : h.id ≠ g.id := by
          have := (dedupGo_mem hg2).2.1
          intro he
          exact this (he ▸ List.mem_cons_self _ _)
        rw [List.find?_cons_of_neg _ (by simpa using hne)]
        exact ih g hg2
    · rename_i hdrop
      obtain ⟨-, hnseen, hne⟩ := dedupGo_mem hg
      have hne2 : h.id ≠ g.id := by
        intro he
        rcases not_and_or.mp hdrop with h1 | h2
        · exact hne (he ▸ (not_not.mp h1))
        · exact hnseen (he ▸ not_not.mp h2)
      rw [List.find?_cons_of_neg _ (by simpa using hne2)]
      exact ih g hg

theorem dedupGo_complete {seen : List String} {l : List Game} {g : Game}
    (hg : g ∈ l) (hne : g.id ≠ "") (hns : g.id ∉ seen) :
    ∃ g2 ∈ dedupGo seen l, g2.id = g.id := by
  induction l generalizing seen with
  | nil => simp at hg
  | cons h t ih =>
    unfold dedupGo
    split
    · by_cases hid : g.id = h.id
      · exact ⟨h, List.mem_cons_self _ _, hid.symm⟩
      · rcases List.mem_cons.mp hg with rfl | hg2
        · exact absurd rfl hid
        · obtain ⟨g2, hg2m, hg2e⟩ := ih hg2 (fun hs =>
            (List.mem_cons.mp hs).elim (fun he => hid he) hns)
          exact ⟨g2, List.mem_cons_of_mem _ hg2m, hg2e⟩
    · rename_i hdrop
      rcases List.mem_cons.mp hg with rfl | hg2
      · exact absurd ⟨hne, hns⟩ hdrop
      · exact ih hg2 hns

/-- C5: for every sequence of page results, the deduplicated ResultSet of
the batch controller has pairwise-distinct identifiers, each retained record
is the first occurrence of its identifier in fetch order (so later
duplicates are discarded entirely, never merged), and every truthy
identifier appearing anywhere is represented. -/
theorem c5_dedup_first_seen (pages : List (List Game)) :
    List.Pairwise (fun a b => a.id ≠ b.id) (dedupById pages.flatten) ∧
    (∀ g ∈ dedupById pages.flatten,
      pages.flatten.find? (fun x => x.id == g.id) = some g) ∧
    (∀ g ∈ pages.flatten, g.id ≠ "" →
      ∃ g2 ∈ dedupById pages.flatten, g2.id = g.id) :=
  ⟨dedupGo_pairwise [] _,
   fun g hg => dedupGo_find g hg,
   fun g hg hne => dedupGo_complete hg hne (by simp)⟩

/-- Two pages with a duplicated identifier `"1"` (different payloads). -/
def pagesW : List (List Game) :=
  [[⟨"1", "A", 10, 100, 50⟩, ⟨"2", "B", 20, 100, 50⟩], [⟨"1", "C", 30, 100, 50⟩]]

/-- C5 witness: on `pagesW` the retained `"1"` record is the first-seen one
(payload `"A"`, not the later `"C"`), and the duplicate is still
represented. -/
theorem c5_witness :
    pagesW.flatten.find? (fun x => x.id == "1") = some ⟨"1", "A", 10, 100, 50⟩ ∧
    (∃ g2 ∈ dedupById pagesW.flatten, g2.id = "1") :=
  ⟨(c5_dedup_first_seen pagesW).2.1 ⟨"1", "A", 10, 100, 50⟩ (by decide),
   (c5_dedup_first_seen pagesW).2.2 ⟨"1", "C", 30, 100, 50⟩ (by decide) (by decide)⟩

/-! ## C8 and C10: the reporter's stable descending sort -/

theorem mem_insertDesc {z x : RawItem} {l : List RawItem} :
    z ∈ insertDesc x l ↔ z = x ∨ z ∈ l := by
  induction l with
  | nil => simp [insertDesc]
  | cons y ys ih =>
    unfold insertDesc
    split
    · rw [List.mem_cons, ih]
      simp [List.mem_cons]
      tauto
    · simp [List.mem_cons]

theorem insertDesc_pairwise {x : RawItem} {l : List RawItem}
    (h : List.Pairwise (fun a b => keyOf b ≤ keyOf a) l) :
    List.Pairwise (fun a b => keyOf b ≤ keyOf a) (insertDesc x l) := by
  induction l with
  | nil => simp [insertDesc]
  | cons y ys ih =>
    rcases List.pairwise_cons.mp h with ⟨hy, hys⟩
    unfold insertDesc
    split
    · rename_i hlt
      refine List.pairwise_cons.mpr ⟨fun z hz => ?_, ih hys⟩
      rcases mem_insertDesc.mp hz with rfl | hz2
      · omega
      · exact hy z hz2
    · rename_i hge
      refine List.pairwise_cons.mpr ⟨fun z hz => ?_, h⟩
      rcases List.mem_cons.mp hz with rfl | hz2
      · omega
      · have := hy z hz2
        omega

theorem insertDesc_filter_pos {x : RawItem} (l : List RawItem) {k : Int}
    (hx : keyOf x = k) :
    (insertDesc x l).filter (fun z => keyOf z == k) =
      x :: l.filter (fun z => keyOf z == k) := by
  induction l with
  | nil => simp [insertDesc, List.filter, hx]
  | cons y ys ih =>
    unfold insertDesc
    split
    · rename_i hlt
      have hy : ¬ (keyOf y = k) := by omega
      simp only [List.filter_cons]
      rw [show (keyOf y == k) = false by simpa using hy, ih]
      simp
    · simp [List.filter_cons, hx]

theorem insertDesc_filter_neg {x : RawItem} (l : List RawItem) {k : Int}
    (hx : ¬ (keyOf x = k)) :
    (insertDesc x l).filter (fun z => keyOf z == k) =
      l.filter (fun z => keyOf z == k) := by
  induction l with
  | nil =>
    simp only [insertDesc, List.filter_cons, List.filter_nil,
      show (keyOf x == k) = false by simpa using hx]
    simp
  | cons y ys ih =>
    unfold insertDesc
    split
    · simp only [List.filter_cons]
      rw [ih]
    · simp only [List.filter_cons,
        show (keyOf x == k) = false by simpa using hx]
      simp

theorem stableSortDesc_pairwise (l : List RawItem) :
    List.Pairwise (fun a b => keyOf b ≤ keyOf a) (stableSortDesc l) := by
  induction l with
  | nil => exact List.Pairwise.nil
  | cons x xs ih => exact insertDesc_pairwise ih

theorem stableSortDesc_filter (l : List RawItem) (k : Int) :
    (stableSortDesc l).filter (fun z => keyOf z == k) =
      l.filter (fun z => keyOf z == k) := by
  induction l with
  | nil => rfl
  | cons x xs ih =>
    show (insertDesc x (stableSortDesc xs)).filter _ = _
    by_cases hx : keyOf x = k
    · rw [insertDesc_filter_pos _ hx, ih]
      simp [List.filter_cons, hx]
    · rw [insertDesc_filter_neg _ hx, ih]
      simp only [List.filter_cons,
        show (keyOf x == k) = false by simpa using hx]
      simp

theorem stableSortDesc_mem {x : RawItem} {l : List RawItem}
    (h : x ∈ stableSortDesc l) : x ∈ l := by
  induction l with
  | nil => simpa [stableSortDesc] using h
  | cons y ys ih =>
    rcases mem_insertDesc.mp h with rfl | h2
    · exact List.mem_cons_self _ _
    · exact List.mem_cons_of_mem _ (ih h2)

/-- C8: the rendered sequence is sorted by `discount_percent` non-increasing,
and for every key value the subsequence of items carrying that value equals
the corresponding subsequence of the (order-preserving) filtered input —
i.e. ties keep their original input order: the sort is stable. -/
theorem c8_sort_stable_desc (items : List (Option RawItem)) (k : Int) :
    List.Pairwise (fun a b => keyOf b ≤ keyOf a) (sort_items_by_discount items) ∧
    (sort_items_by_discount items).filter (fun z => keyOf z == k) =
      (validItems items).filter (fun z => keyOf z == k) :=
  ⟨stableSortDesc_pairwise _, stableSortDesc_filter _ k⟩

/-- C10 (implicit claim): every item surviving the reporter's sort is truthy
(non-empty) and carries a `discount_percent` key; falsy or keyless records
are silently removed and never rendered. -/
theorem c10_sort_removes_invalid (items : List (Option RawItem)) :
    ∀ x ∈ sort_items_by_discount items, x ≠ [] ∧ hasDiscountKey x = true := by
  intro x hx
  have hv : x ∈ validItems items := stableSortDesc_mem hx
  unfold validItems at hv
  rw [List.mem_filterMap] at hv
  obtain ⟨o, -, ho⟩ := hv
  match o with
  | none => simp at ho
  | some d =>
    dsimp only at ho
    by_cases he : d.isEmpty
    · rw [if_pos he] at ho; simp at ho
    · rw [if_neg he] at ho
      by_cases hk : hasDiscountKey d
      · rw [if_pos hk] at ho
        cases ho
        exact ⟨by simpa [List.isEmpty_iff] using he, hk⟩
      · rw [if_neg hk] at ho; simp at ho

/-- C10 witness: on a list containing a `None`, an empty dict and a keyless
dict, the sorted output's sole survivor is non-empty and keyed. -/
theorem c10_witness :
    ([("discount_percent", (5 : Int))] : RawItem) ≠ [] ∧
    hasDiscountKey [("discount_percent", (5 : Int))] = true :=
  c10_sort_removes_invalid
    [some [("discount_percent", (5 : Int))], none, some [], some [("x", (2 : Int))]]
    [("discount_percent", (5 : Int))] (by decide)

/-! ## C6: sequential fetching with early stop -/

/-- C6: pages are fetched sequentially from 1 and the run stops early at
either terminal condition — a page yielding zero extracted items or a fetch
returning no markup.  When page 3 of a 5-page run hits either condition
(pages 1 and 2 having yielded items), the run terminates after page 3 —
pages 4 and 5 are never fetched — and the returned ResultSet is the
deduplication of pages 1–2's items in order. -/
theorem c6_early_stop (orc : ℕ → Option (List Game)) (r1 r2 : List Game)
    (h1 : orc 1 = some r1) (hne1 : r1 ≠ [])
    (h2 : orc 2 = some r2) (hne2 : r2 ≠ [])
    (h3 : orc 3 = some [] ∨ orc 3 = none) :
    get_all_discounted_games orc 5 5 (by norm_num) =
      ([1, 2, 3], dedupById (r1 ++ r2)) := by
  have e1 : r1.isEmpty = false := by
    cases r1
    · exact absurd rfl hne1
    · rfl
  have e2 : r2.isEmpty = false := by
    cases r2
    · exact absurd rfl hne2
    · rfl
  have hin : innerBatch orc 5 5 1 [] [] = ([1, 2, 3], r1 ++ r2, 6) := by
    rcases h3 with h3 | h3 <;> simp [innerBatch, h1, h2, h3, e1, e2]
  unfold get_all_discounted_games
  rw [runPages, dif_pos (by norm_num : (1 : ℕ) ≤ 5)]
  simp only [hin]
  rw [runPages, dif_neg (by norm_num : ¬ (6 : ℕ) ≤ 5)]

/-- Witness oracle: pages 4 and 5 would yield items, but are never reached. -/
def orcW : ℕ → Option (List Game) := fun p =>
  if p = 1 then some [⟨"w1", "W", 40, 100, 60⟩]
  else if p = 2 then some [⟨"w2", "W", 30, 100, 70⟩]
  else if p = 3 then some []
  else some [⟨"w9", "W", 90, 100, 10⟩]

/-- C6 witness: the early stop applied to `orcW`. -/
theorem c6_witness :
    get_all_discounted_games orcW 5 5 (by norm_num) =
      ([1, 2, 3], [⟨"w1", "W", 40, 100, 60⟩, ⟨"w2", "W", 30, 100, 70⟩]) := by
  have h := c6_early_stop orcW [⟨"w1", "W", 40, 100, 60⟩] [⟨"w2", "W", 30, 100, 70⟩]
    rfl (by simp) rfl (by simp) (Or.inl rfl)
  rw [h]
  decide

/-! ## C9: parse ∘ format round trip -/

theorem ws_false_of_digit {c : Char} (h : c.isDigit = true) :
    c.isWhitespace = false := by
  cases hb : c.isWhitespace
  · rfl
  · exfalso
    have h4 := hb
    simp only [Char.isWhitespace, Bool.or_eq_true, decide_eq_true_eq] at h4
    rcases h4 with ((rfl | rfl) | rfl) | rfl <;> exact absurd h (by decide)

theorem nbsp_false_of_digit {c : Char} (h : c.isDigit = true) :
    (c == nbsp) = false := by
  cases hb : c == nbsp
  · rfl
  · exfalso
    have : c = nbsp := by simpa using hb
    subst this
    exact absurd h (by decide)

theorem pyWs_false_of_digit {c : Char} (h : c.isDigit = true) : pyWs c = false := by
  unfold pyWs
  rw [ws_false_of_digit h, nbsp_false_of_digit h]
  rfl

theorem dropWhile_eq_self_of {p : Char → Bool} {l : List Char}
    (h : ∀ c ∈ l, p c = false) : l.dropWhile p = l := by
  cases l with
  | nil => rfl
  | cons c cs =>
    exact List.dropWhile_cons_of_neg (by simp [h c (List.mem_cons_self _ _)])

theorem pyStrip_eq_self {l : List Char} (h : ∀ c ∈ l, pyWs c = false) :
    pyStrip l = l := by
  unfold pyStrip
  rw [dropWhile_eq_self_of h,
      dropWhile_eq_self_of (fun c hc => h c (List.mem_reverse.mp hc)),
      List.reverse_reverse]

theorem norm_map_id {l : List Char} (h : ∀ c ∈ l, (c == nbsp) = false) :
    l.map (fun c => if c == nbsp then ' ' else c) = l := by
  induction l with
  | nil => rfl
  | cons c cs ih =>
    simp only [List.map_cons, h c (List.mem_cons_self _ _), Bool.false_eq_true,
      if_false]
    rw [ih fun d hd => h d (List.mem_cons_of_mem _ hd)]

theorem digitsVal_foldl (l : List Char) :
    ∀ a : ℕ, l.foldl (fun a c => 10 * a + digitVal c) a =
      a * 10 ^ l.length + digitsVal l := by
  induction l with
  | nil => intro a; simp [digitsVal]
  | cons c cs ih =>
    intro a
    have hv : digitsVal (c :: cs) = digitVal c * 10 ^ cs.length + digitsVal cs := by
      show List.foldl _ (10 * 0 + digitVal c) cs = _
      rw [ih (10 * 0 + digitVal c)]
      ring
    simp only [List.foldl_cons, List.length_cons, hv]
    rw [ih (10 * a + digitVal c)]
    ring

theorem digitsVal_cons (c : Char) (cs : List Char) :
    digitsVal (c :: cs) = digitVal c * 10 ^ cs.length + digitsVal cs := by
  show List.foldl _ (10 * 0 + digitVal c) cs = _
  rw [digitsVal_foldl cs (10 * 0 + digitVal c)]
  ring

theorem digitVal_digChar {d : ℕ} (h : d < 10) : digitVal (digChar d) = d := by
  interval_cases d <;> decide

theorem isDigit_digChar {d : ℕ} (h : d < 10) : (digChar d).isDigit = true := by
  interval_cases d <;> decide

theorem natDigsGo_val (n : ℕ) :
    ∀ acc, digitsVal (natDigsGo n acc) = n * 10 ^ acc.length + digitsVal acc := by
  induction n using Nat.strong_induction_on with
  | _ n ih =>
    intro acc
    match n with
    | 0 => simp [natDigsGo]
    | m + 1 =>
      rw [natDigsGo]
      rw [ih ((m + 1) / 10) (Nat.div_lt_self (Nat.succ_pos m) (by omega))]
      rw [digitsVal_cons, digitVal_digChar (Nat.mod_lt _ (by omega))]
      simp only [List.length_cons]
      have h10 : (10 : ℕ) ^ (acc.length + 1) = 10 * 10 ^ acc.length := by ring
      rw [h10]
      have hdm : 10 * ((m + 1) / 10) + (m + 1) % 10 = m + 1 :=
        Nat.div_add_mod (m + 1) 10
      have hr : (m + 1) / 10 * (10 * 10 ^ acc.length) +
            ((m + 1) % 10 * 10 ^ acc.length + digitsVal acc) =
          (10 * ((m + 1) / 10) + (m + 1) % 10) * 10 ^ acc.length + digitsVal acc := by
        ring
      rw [hr, hdm]

theorem natDigsGo_digits (n : ℕ) :
    ∀ acc, (∀ c ∈ acc, c.isDigit = true) →
      ∀ c ∈ natDigsGo n acc, c.isDigit = true := by
  induction n using Nat.strong_induction_on with
  | _ n ih =>
    intro acc hacc
    match n with
    | 0 => simpa [natDigsGo] using hacc
    | m + 1 =>
      rw [natDigsGo]
      refine ih ((m + 1) / 10) (Nat.div_lt_self (Nat.succ_pos m) (by omega)) _ ?_
      intro c hc
      rcases List.mem_cons.mp hc with rfl | hc2
      · exact isDigit_digChar (Nat.mod_lt _ (by omega))
      · exact hacc c hc2

theorem natDigsGo_len (n : ℕ) :
    ∀ acc : List Char, acc.length ≤ (natDigsGo n acc).length := by
  induction n using Nat.strong_induction_on with
  | _ n ih =>
    intro acc
    match n with
    | 0 => simp [natDigsGo]
    | m + 1 =>
      rw [natDigsGo]
      have := ih ((m + 1) / 10) (Nat.div_lt_self (Nat.succ_pos m) (by omega))
        (digChar ((m + 1) % 10) :: acc)
      simp only [List.length_cons] at this
      omega

theorem digitsVal_natDigits (n : ℕ) : digitsVal (natDigits n) = n := by
  unfold natDigits
  by_cases h : n = 0
  · subst h; decide
  · rw [if_neg h, natDigsGo_val n []]
    simp [digitsVal]

theorem natDigits_digits (n : ℕ) : ∀ c ∈ natDigits n, c.isDigit = true := by
  unfold natDigits
  by_cases h : n = 0
  · subst h; intro c hc; simp at hc; subst hc; decide
  · rw [if_neg h]
    exact natDigsGo_digits n [] (by simp)

theorem natDigits_ne_nil (n : ℕ) : natDigits n ≠ [] := by
  unfold natDigits
  by_cases h : n = 0
  · subst h; simp
  · rw [if_neg h]
    intro he
    have := natDigsGo_len n []
    rw [he] at this
    match n, h with
    | m + 1, _ =>
      rw [natDigsGo] at he
      have := natDigsGo_len ((m + 1) / 10) (digChar ((m + 1) % 10) :: [])
      rw [he] at this
      simp at this

theorem token_ip_fp (ip fp : List Char) (hip : ip ≠ [])
    (hipd : ∀ c ∈ ip, c.isDigit = true) (hfp : fp ≠ [])
    (hfpd : ∀ c ∈ fp, c.isDigit = true) :
    tokenHere (ip ++ '.' :: fp) = some ((ip, fp), []) := by
  match ip, hip with
  | c :: ipt, _ =>
    have hc : c.isDigit = true := hipd c (List.mem_cons_self _ _)
    have hiptd : ∀ a ∈ ipt, Char.isDigit a = true :=
      fun a ha => hipd a (List.mem_cons_of_mem _ ha)
    rw [List.cons_append]
    unfold tokenHere
    dsimp only
    rw [if_pos hc]
    rw [List.takeWhile_append_of_pos hiptd, List.dropWhile_append_of_pos hiptd]
    rw [List.takeWhile_cons_of_neg (by decide), List.dropWhile_cons_of_neg (by decide)]
    match fp, hfp with
    | d :: fpt, _ =>
      have hd : d.isDigit = true := hfpd d (List.mem_cons_self _ _)
      have hfptd : ∀ a ∈ fpt, Char.isDigit a = true :=
        fun a ha => hfpd a (List.mem_cons_of_mem _ ha)
      dsimp only
      rw [if_pos (by rw [hd]; decide)]
      rw [List.takeWhile_eq_self_iff.mpr hfptd, List.dropWhile_eq_nil_iff.mpr hfptd]
      simp

theorem fnt_cons_not_digit {c : Char} {cs : List Char} (h : c.isDigit = false) :
    firstNumericToken (c :: cs) = firstNumericToken cs := by
  simp [firstNumericToken, tokenHere, h]

theorem fnt_token (ip fp : List Char) (hip : ip ≠ [])
    (hipd : ∀ c ∈ ip, c.isDigit = true) (hfp : fp ≠ [])
    (hfpd : ∀ c ∈ fp, c.isDigit = true) :
    firstNumericToken (ip ++ '.' :: fp) = some (ip, fp) := by
  match ip, hip, hipd with
  | c :: ipt, _, hipd =>
    rw [List.cons_append]
    unfold firstNumericToken
    rw [← List.cons_append,
        token_ip_fp (c :: ipt) fp (by simp) hipd hfp hfpd]

/-- C9: the price parser is a left inverse of `format_price` on positive
amounts — exactly, not merely up to rounding, since minor units render with
two fractional digits and parse back losslessly. -/
theorem c9_round_trip (x : Int) (hx : 0 < x) :
    extract_price_from_text (format_price x) = (x : ℚ) := by
  have hd1 : x.toNat % 100 / 10 < 10 := by omega
  have hd2 : x.toNat % 100 % 10 < 10 := by omega
  have hdigB : ∀ c ∈ [digChar (x.toNat % 100 / 10), digChar (x.toNat % 100 % 10)],
      c.isDigit = true := by
    intro c hc
    rcases List.mem_cons.mp hc with rfl | hc2
    · exact isDigit_digChar hd1
    · rcases List.mem_cons.mp hc2 with rfl | hc3
      · exact isDigit_digChar hd2
      · simp at hc3
  have hfmt : format_price x = String.mk ('$' :: (natDigits (x.toNat / 100) ++
      '.' :: [digChar (x.toNat % 100 / 10), digChar (x.toNat % 100 % 10)])) := by
    unfold format_price
    rw [if_neg (by omega)]
    show String.mk ((((['$'] ++ natDigits (x.toNat / 100)) ++ ['.']) ++
      [digChar (x.toNat % 100 / 10), digChar (x.toNat % 100 % 10)])) = _
    congr 1
    simp [List.append_assoc]
  have hall : ∀ c ∈ '$' :: (natDigits (x.toNat / 100) ++
      '.' :: [digChar (x.toNat % 100 / 10), digChar (x.toNat % 100 % 10)]),
      (c == nbsp) = false ∧ pyWs c = false := by
    intro c hc
    rcases List.mem_cons.mp hc with rfl | hc2
    · exact ⟨by decide, by decide⟩
    · rcases List.mem_append.mp hc2 with hA | hB2
      · have hd := natDigits_digits _ c hA
        exact ⟨nbsp_false_of_digit hd, pyWs_false_of_digit hd⟩
      · rcases List.mem_cons.mp hB2 with rfl | hB3
        · exact ⟨by decide, by decide⟩
        · have hd := hdigB c hB3
          exact ⟨nbsp_false_of_digit hd, pyWs_false_of_digit hd⟩
  have hnorm : normText (String.mk ('$' :: (natDigits (x.toNat / 100) ++
      '.' :: [digChar (x.toNat % 100 / 10), digChar (x.toNat % 100 % 10)]))) =
      '$' :: (natDigits (x.toNat / 100) ++
        '.' :: [digChar (x.toNat % 100 / 10), digChar (x.toNat % 100 % 10)]) := by
    unfold normText
    rw [show (String.mk ('$' :: (natDigits (x.toNat / 100) ++
      '.' :: [digChar (x.toNat % 100 / 10), digChar (x.toNat % 100 % 10)]))).toList =
      '$' :: (natDigits (x.toNat / 100) ++
        '.' :: [digChar (x.toNat % 100 / 10), digChar (x.toNat % 100 % 10)]) from rfl]
    rw [norm_map_id (fun c hc => (hall c hc).1),
        pyStrip_eq_self (fun c hc => (hall c hc).2)]
  rw [hfmt]
  unfold extract_price_from_text
  rw [if_neg (fun h => by simpa using congrArg String.data h)]
  rw [hnorm]
  rw [fnt_cons_not_digit (by decide)]
  rw [fnt_token _ _ (natDigits_ne_nil _) (natDigits_digits _) (by simp) hdigB]
  dsimp only
  unfold decimalVal
  rw [digitsVal_natDigits]
  have hB : digitsVal [digChar (x.toNat % 100 / 10), digChar (x.toNat % 100 % 10)] =
      x.toNat % 100 := by
    rw [digitsVal_cons, digitsVal_cons, digitVal_digChar hd1, digitVal_digChar hd2]
    show x.toNat % 100 / 10 * 10 ^ 1 + (x.toNat % 100 % 10 * 10 ^ 0 + digitsVal []) =
      x.toNat % 100
    have : digitsVal [] = 0 := rfl
    rw [this]
    omega
  rw [hB]
  rw [show ([digChar (x.toNat % 100 / 10), digChar (x.toNat % 100 % 10)] :
    List Char).length = 2 from rfl]
  have hqr : 100 * (x.toNat / 100) + x.toNat % 100 = x.toNat := by omega
  have hxt : ((x.toNat : ℚ)) = (x : ℚ) := by
    have := Int.toNat_of_nonneg hx.le
    exact_mod_cast congrArg (fun z : Int => (z : ℚ)) this
  rw [← hxt]
  conv_rhs => rw [← hqr]
  push_cast
  ring

/-- C9 witness: the round trip applied at `x = 12345` (`"$123.45"`). -/
theorem c9_witness : extract_price_from_text (format_price 12345) = (12345 : ℚ) :=
  c9_round_trip 12345 (by norm_num)
